import Mathlib

/-!
Shallow embedding of the p2p-games claim-resolution core (crates p2p-core:
protocol.rs, registry.rs, discovery.rs).

Conventions of the embedding:
- Rust strings are modelled as `List Char` (abbreviated `Str`).  Rust compares
  `&str` values byte-lexicographically on their UTF-8 encodings, which agrees
  with character-pointwise comparison of the code points, so `strLtb` below is
  the character-level translation of Rust `<` on strings.
- `u64` timestamps are modelled as `Nat` (no arithmetic is ever performed on
  them, only comparisons, so overflow is irrelevant).
- Rust `to_lowercase` is modelled per character via `Char.toLower` (the two
  agree on ASCII, which is the only casing the repository exercises).
- Sources of nondeterminism in the Rust code (`now_ms()` wall-clock reads and
  `Uuid::new_v4()` fresh ids) are modelled as explicit parameters.
- The bounded collection window of `claim_unique` / `claim_room_name` yields a
  finite list of received byte messages; each message either deserializes to
  the expected envelope (`some env`) or is malformed (`none`).  The Rust
  receive loop applies the body of every well-formed envelope to the table and
  silently skips malformed messages; the folds below do exactly that.
- Rust string slicing `&s[..k]` is byte-indexed and panics when `k` is not a
  character boundary; `takeBytes` returns `none` exactly on the panicking
  inputs and `some` of the sliced characters otherwise.
-/

namespace P2P

/-- Rust strings, as lists of characters. -/
abbrev Str := List Char

/-- Shorthand turning a Lean string literal into the `Str` model. -/
def str (s : String) : Str := s.data

/-- Rust `<` on `&str`: lexicographic comparison (byte order on UTF-8 agrees
with code-point order, so the character-level comparison is faithful). -/
def strLtb : Str → Str → Bool
  | _, [] => false
  | [], _ :: _ => true
  | a :: as, b :: bs => if a < b then true else if b < a then false else strLtb as bs

/-- Rust `to_lowercase`, per character (exact on ASCII). -/
def lower (s : Str) : Str := s.map Char.toLower

/-- Byte count of one character in UTF-8. -/
def utf8Len (c : Char) : Nat :=
  if c.toNat < 0x80 then 1 else if c.toNat < 0x800 then 2
  else if c.toNat < 0x10000 then 3 else 4

/-- Rust `str::len`: byte length of the UTF-8 encoding. -/
def byteLen : Str → Nat
  | [] => 0
  | c :: cs => utf8Len c + byteLen cs

/-- Rust `&s[..k]`: the characters making up the first `k` bytes of the UTF-8
encoding.  Returns `none` exactly when Rust panics, i.e. when `k` overruns the
string or falls strictly inside a multi-byte character. -/
def takeBytes : Str → Nat → Option Str
  | _, 0 => some []
  | [], _ + 1 => none
  | c :: cs, n + 1 =>
    if utf8Len c ≤ n + 1 then (takeBytes cs (n + 1 - utf8Len c)).map (fun l => c :: l)
    else none

/-- protocol.rs: `PROTOCOL_VER`. -/
def PROTOCOL_VER : Nat := 1

/-- protocol.rs: message category `Kind`. -/
inductive Kind
  | Discovery
  | Room
  | Chat
  | Game
deriving DecidableEq

/-- protocol.rs: broadcast scope `Scope`. -/
inductive Scope
  | Global
  | Room
deriving DecidableEq

/-- protocol.rs: the versioned message envelope `Envelope<T>`. -/
structure Envelope (T : Type) where
  ver : Nat
  kind : Kind
  scope : Scope
  room_id : Option Str
  sender_id : Str
  msg_id : Str
  ts : Nat
  body : T
deriving DecidableEq

/-- protocol.rs: chat payload `ChatMsg`. -/
structure ChatMsg where
  text : Str
deriving DecidableEq

/-- protocol.rs: room metadata `RoomSummary`. -/
structure RoomSummary where
  room_id : Str
  title : Str
  host_id : Str
  last_seen : Nat
deriving DecidableEq

/-- protocol.rs: tagged discovery payload `DiscoveryBody`. -/
inductive DiscoveryBody
  | AnnounceRoom (room_id title host_id : Str) (created_at : Nat)
  | ListRoomsReq
  | ListRoomsRes (rooms : List RoomSummary)
deriving DecidableEq

/-- protocol.rs: nickname claim `NameClaim`. -/
structure NameClaim where
  nick_lower : Str
  nickname : Str
  owner_peer_id : Str
  since_ts : Nat
deriving DecidableEq

/-- protocol.rs: conflict-resolution rule `name_clame_wins` (the function name
carries the spelling used in the source). -/
def name_clame_wins (a_owner : Str) (a_ts : Nat) (b_owner : Str) (b_ts : Nat) : Bool :=
  if a_ts ≠ b_ts then decide (a_ts < b_ts) else strLtb a_owner b_owner

/-- protocol.rs: `make_envelope`; the internally generated fresh `msg_id` is an
explicit parameter here. -/
def make_envelope {T : Type} (kind : Kind) (scope : Scope) (room_id : Option Str)
    (sender_id : Str) (ts : Nat) (body : T) (msg_id : Str) : Envelope T :=
  ⟨PROTOCOL_VER, kind, scope, room_id, sender_id, msg_id, ts, body⟩

/-- protocol.rs: `make_chat_global`; `now_ms()` and the fresh uuid are explicit
parameters. -/
def make_chat_global (sender_id : Str) (text : Str) (now : Nat) (msg_id : Str) :
    Envelope ChatMsg :=
  make_envelope Kind.Chat Scope.Global none sender_id now ⟨text⟩ msg_id

/-- protocol.rs: `make_chat_room`; `now_ms()` and the fresh uuid are explicit
parameters. -/
def make_chat_room (room_id : Str) (sender_id : Str) (text : Str) (now : Nat)
    (msg_id : Str) : Envelope ChatMsg :=
  make_envelope Kind.Chat Scope.Room (some room_id) sender_id now ⟨text⟩ msg_id

/-- registry.rs: the value stored per key in `NameTable.owners`, a Rust triple
`(owner_peer_id, since_ts, nickname-casing)`. -/
structure NameRec where
  owner_peer_id : Str
  since_ts : Nat
  nickname : Str
deriving DecidableEq

/-- registry.rs: `NameTable`, the convergent merge store for nickname claims
(the `BTreeMap` is modelled as its lookup function). -/
structure NameTable where
  owners : Str → Option NameRec

/-- registry.rs: `NameTable::default()`. -/
def NameTable.empty : NameTable := ⟨fun _ => none⟩

/-- BTreeMap insert at one key. -/
def NameTable.insert (t : NameTable) (k : Str) (r : NameRec) : NameTable :=
  ⟨fun q => if q = k then some r else t.owners q⟩

/-- registry.rs: `NameTable::apply`. -/
def NameTable.apply (t : NameTable) (c : NameClaim) : NameTable :=
  match t.owners c.nick_lower with
  | none => t.insert c.nick_lower ⟨c.owner_peer_id, c.since_ts, c.nickname⟩
  | some r =>
    if r.owner_peer_id = c.owner_peer_id then
      if c.nickname ≠ r.nickname then
        t.insert c.nick_lower ⟨r.owner_peer_id, r.since_ts, c.nickname⟩
      else t
    else
      if name_clame_wins c.owner_peer_id c.since_ts r.owner_peer_id r.since_ts then
        t.insert c.nick_lower ⟨c.owner_peer_id, c.since_ts, c.nickname⟩
      else
        t.insert c.nick_lower ⟨r.owner_peer_id, r.since_ts, r.nickname⟩

/-- registry.rs: `NameTable::owner`. -/
def NameTable.owner (t : NameTable) (k : Str) : Option NameRec := t.owners k

/-- Repeated application of `NameTable::apply`, in list order. -/
def NameTable.applyList (t : NameTable) (l : List NameClaim) : NameTable :=
  l.foldl NameTable.apply t

/-- registry.rs: the claim built at the start of `claim_unique`. -/
def claim_unique_claim (desired my_peer_id : Str) (now : Nat) : NameClaim :=
  ⟨lower desired, desired, my_peer_id, now⟩

/-- registry.rs: the envelope published by `claim_unique` (fresh uuid as an
explicit parameter). -/
def claim_unique_env (desired my_peer_id : Str) (now : Nat) (msg_id : Str) :
    Envelope NameClaim :=
  ⟨PROTOCOL_VER, Kind.Room, Scope.Global, none, my_peer_id, msg_id, now,
    claim_unique_claim desired my_peer_id now⟩

/-- registry.rs: the receive loop of `claim_unique`.  Each received message is
either a well-formed `Envelope<NameClaim>` (whose body is applied) or a
malformed byte sequence (`none`, skipped). -/
def collectNames (t : NameTable) (received : List (Option (Envelope NameClaim))) :
    NameTable :=
  received.foldl
    (fun t m => match m with
      | some env => t.apply env.body
      | none => t) t

/-- registry.rs: the table state of `claim_unique` after seeding the fresh
table with the own claim and running the collection window. -/
def claim_unique_table (desired my_peer_id : Str) (now : Nat)
    (received : List (Option (Envelope NameClaim))) : NameTable :=
  collectNames (NameTable.empty.apply (claim_unique_claim desired my_peer_id now))
    received

/-- registry.rs: the fallback branch of `claim_unique`, with the byte slice
`&my_peer_id[..6.min(my_peer_id.len())]`; `none` models the slicing panic. -/
def claim_unique_fallback (desired my_peer_id : Str) : Option (Str × Bool) :=
  (takeBytes my_peer_id (min 6 (byteLen my_peer_id))).map
    (fun suffix => (desired ++ '-' :: suffix, false))

/-- registry.rs: `NameRegistry::claim_unique` as a function of the messages
received in the collection window.  `none` models the slicing panic in the
fallback branch. -/
def claim_unique (desired my_peer_id : Str) (now : Nat)
    (received : List (Option (Envelope NameClaim))) : Option (Str × Bool) :=
  match (claim_unique_table desired my_peer_id now received).owner (lower desired) with
  | some r =>
    if r.owner_peer_id = my_peer_id then some (r.nickname, true)
    else claim_unique_fallback desired my_peer_id
  | none => claim_unique_fallback desired my_peer_id

/-- discovery.rs: room-name claim `RoomClaim`. -/
structure RoomClaim where
  name_lower : Str
  name : Str
  owner_peer_id : Str
  since_ts : Nat
  room_id : Str
deriving DecidableEq

/-- discovery.rs: conflict-resolution rule `room_claim_wins`. -/
def room_claim_wins (a_owner : Str) (a_ts : Nat) (b_owner : Str) (b_ts : Nat) : Bool :=
  if a_ts ≠ b_ts then decide (a_ts < b_ts) else strLtb a_owner b_owner

/-- discovery.rs: the value stored per key in `RoomTable.names`, a Rust tuple
`(owner_peer_id, since_ts, display-name, room_id)`. -/
structure RoomRec where
  owner_peer_id : Str
  since_ts : Nat
  name : Str
  room_id : Str
deriving DecidableEq

/-- discovery.rs: `RoomTable`, the merge store for room-name claims. -/
structure RoomTable where
  names : Str → Option RoomRec

/-- discovery.rs: `RoomTable::default()`. -/
def RoomTable.empty : RoomTable := ⟨fun _ => none⟩

/-- BTreeMap insert at one key. -/
def RoomTable.insert (t : RoomTable) (k : Str) (r : RoomRec) : RoomTable :=
  ⟨fun q => if q = k then some r else t.names q⟩

/-- discovery.rs: `RoomTable::apply_claim`. -/
def RoomTable.apply_claim (t : RoomTable) (c : RoomClaim) : RoomTable :=
  match t.names c.name_lower with
  | none => t.insert c.name_lower ⟨c.owner_peer_id, c.since_ts, c.name, c.room_id⟩
  | some r =>
    if r.owner_peer_id = c.owner_peer_id then
      if c.name ≠ r.name ∨ c.room_id ≠ r.room_id then
        t.insert c.name_lower ⟨r.owner_peer_id, r.since_ts, c.name, c.room_id⟩
      else t
    else
      if room_claim_wins c.owner_peer_id c.since_ts r.owner_peer_id r.since_ts then
        t.insert c.name_lower ⟨c.owner_peer_id, c.since_ts, c.name, c.room_id⟩
      else
        t.insert c.name_lower ⟨r.owner_peer_id, r.since_ts, r.name, r.room_id⟩

/-- discovery.rs: `RoomTable::owner_of`. -/
def RoomTable.owner_of (t : RoomTable) (k : Str) : Option RoomRec := t.names k

/-- Repeated application of `RoomTable::apply_claim`, in list order. -/
def RoomTable.applyList (t : RoomTable) (l : List RoomClaim) : RoomTable :=
  l.foldl RoomTable.apply_claim t

/-- discovery.rs: the claim built by `claim_room_name`; the generated
`room_id` (a fresh `"lobby-<uuid>"`) is an explicit parameter. -/
def claim_room_claim (desired_name my_peer_id : Str) (now : Nat) (room_id : Str) :
    RoomClaim :=
  ⟨lower desired_name, desired_name, my_peer_id, now, room_id⟩

/-- discovery.rs: the envelope published by `claim_room_name`. -/
def claim_room_env (desired_name my_peer_id : Str) (now : Nat) (room_id msg_id : Str) :
    Envelope RoomClaim :=
  ⟨PROTOCOL_VER, Kind.Discovery, Scope.Global, none, my_peer_id, msg_id, now,
    claim_room_claim desired_name my_peer_id now room_id⟩

/-- discovery.rs: the receive loop of `claim_room_name`; malformed messages
are `none` and are skipped. -/
def collectRooms (t : RoomTable) (received : List (Option (Envelope RoomClaim))) :
    RoomTable :=
  received.foldl
    (fun t m => match m with
      | some env => t.apply_claim env.body
      | none => t) t

/-- discovery.rs: the table state of `claim_room_name` after seeding with the
own claim and running the collection window. -/
def claim_room_table (desired_name my_peer_id : Str) (now : Nat) (room_id : Str)
    (received : List (Option (Envelope RoomClaim))) : RoomTable :=
  collectRooms
    (RoomTable.empty.apply_claim (claim_room_claim desired_name my_peer_id now room_id))
    received

/-- discovery.rs: `Discovery::claim_room_name` as a function of the messages
received in the collection window. -/
def claim_room_name (desired_name my_peer_id : Str) (now : Nat) (room_id : Str)
    (received : List (Option (Envelope RoomClaim))) : Str × Bool :=
  match (claim_room_table desired_name my_peer_id now room_id received).owner_of
      (lower desired_name) with
  | some r =>
    if r.owner_peer_id = my_peer_id then (r.room_id, true) else (room_id, false)
  | none => (room_id, false)

/-- discovery.rs: the envelope published by `announce_room` (the two separate
`now_ms()` reads and the fresh uuid are explicit parameters). -/
def announce_room_env (room_id title host_id : Str) (created_at now : Nat)
    (msg_id : Str) : Envelope DiscoveryBody :=
  ⟨PROTOCOL_VER, Kind.Discovery, Scope.Global, none, host_id, msg_id, now,
    DiscoveryBody.AnnounceRoom room_id title host_id created_at⟩

/-- discovery.rs: the request envelope published by `list_rooms`. -/
def list_rooms_env (now : Nat) (msg_id : Str) : Envelope DiscoveryBody :=
  ⟨PROTOCOL_VER, Kind.Discovery, Scope.Global, none, str "client", msg_id, now,
    DiscoveryBody.ListRoomsReq⟩

/-- discovery.rs: the response envelope published by `serve_discovery` on a
`ListRoomsReq`. -/
def serve_discovery_res_env (rooms : List RoomSummary) (now : Nat) (msg_id : Str) :
    Envelope DiscoveryBody :=
  ⟨PROTOCOL_VER, Kind.Discovery, Scope.Global, none, str "server", msg_id, now,
    DiscoveryBody.ListRoomsRes rooms⟩

/-- Header invariant of the spec: `ver` is stamped with the protocol version
and `room_id` is present exactly for room-scoped envelopes (the remaining
header fields are total by construction). -/
def headerOk {T : Type} (e : Envelope T) : Prop :=
  e.ver = PROTOCOL_VER ∧ (e.room_id.isSome ↔ e.scope = Scope.Room)

/-- The record a nickname claim inserts when it wins. -/
def NameClaim.toRec (c : NameClaim) : NameRec :=
  ⟨c.owner_peer_id, c.since_ts, c.nickname⟩

/-- The record a room claim inserts when it wins. -/
def RoomClaim.toRec (c : RoomClaim) : RoomRec :=
  ⟨c.owner_peer_id, c.since_ts, c.name, c.room_id⟩

/-- The effect of `NameTable::apply` on the record stored under the key of the
incoming claim, viewed in isolation. -/
def nameStep (o : Option NameRec) (c : NameClaim) : Option NameRec :=
  match o with
  | none => some c.toRec
  | some r =>
    if r.owner_peer_id = c.owner_peer_id then
      if c.nickname ≠ r.nickname then some ⟨r.owner_peer_id, r.since_ts, c.nickname⟩
      else some r
    else
      if name_clame_wins c.owner_peer_id c.since_ts r.owner_peer_id r.since_ts then
        some c.toRec
      else some r

/-- The effect of `RoomTable::apply_claim` on the record stored under the key
of the incoming claim, viewed in isolation. -/
def roomStep (o : Option RoomRec) (c : RoomClaim) : Option RoomRec :=
  match o with
  | none => some c.toRec
  | some r =>
    if r.owner_peer_id = c.owner_peer_id then
      if c.name ≠ r.name ∨ c.room_id ≠ r.room_id then
        some ⟨r.owner_peer_id, r.since_ts, c.name, c.room_id⟩
      else some r
    else
      if room_claim_wins c.owner_peer_id c.since_ts r.owner_peer_id r.since_ts then
        some c.toRec
      else some r

/-- The claim kept when an incoming nickname claim `c` meets an existing
claim `a` owned by a different peer. -/
def nameMin2 (a c : NameClaim) : NameClaim :=
  if name_clame_wins c.owner_peer_id c.since_ts a.owner_peer_id a.since_ts then c else a

/-- Iterated `nameMin2` over a list. -/
def nameMinC (a : NameClaim) : List NameClaim → NameClaim
  | [] => a
  | x :: xs => nameMinC (nameMin2 a x) xs

/-- The claim kept when an incoming room claim `c` meets an existing claim
`a` owned by a different peer. -/
def roomMin2 (a c : RoomClaim) : RoomClaim :=
  if room_claim_wins c.owner_peer_id c.since_ts a.owner_peer_id a.since_ts then c else a

/-- Iterated `roomMin2` over a list. -/
def roomMinC (a : RoomClaim) : List RoomClaim → RoomClaim
  | [] => a
  | x :: xs => roomMinC (roomMin2 a x) xs

/-- Reflexive closure of the priority order on `(owner, timestamp)` pairs used
by the conflict-resolution rules. -/
def ctLe (a_owner : Str) (a_ts : Nat) (b_owner : Str) (b_ts : Nat) : Prop :=
  a_ts < b_ts ∨ (a_ts = b_ts ∧ (strLtb a_owner b_owner = true ∨ a_owner = b_owner))

/-- Priority order on nickname claims. -/
def NameClaim.le (a b : NameClaim) : Prop :=
  ctLe a.owner_peer_id a.since_ts b.owner_peer_id b.since_ts

/-- Priority order on room claims. -/
def RoomClaim.le (a b : RoomClaim) : Prop :=
  ctLe a.owner_peer_id a.since_ts b.owner_peer_id b.since_ts

/-- A string made of ASCII characters only (one UTF-8 byte each). -/
def strAscii (s : Str) : Prop := ∀ c ∈ s, c.toNat < 0x80

/-! Order-theoretic facts about the string comparison and the resolution rule. -/

theorem strLtb_irrefl (s : Str) : strLtb s s = false := by
  induction s with
  | nil => rfl
  | cons c cs ih => simp [strLtb, lt_irrefl, ih]

theorem strLtb_asymm : ∀ a b : Str, strLtb a b = true → strLtb b a = false
  | [], [], h => by simp [strLtb] at h
  | [], _ :: _, _ => rfl
  | _ :: _, [], h => by simp [strLtb] at h
  | x :: xs, y :: ys, h => by
    by_cases h1 : x < y
    · have h2 : ¬ y < x := lt_asymm h1
      simp [strLtb, h1, h2]
    · by_cases h2 : y < x
      · simp [strLtb, h1, h2] at h
      · have hxy : x = y := le_antisymm (not_lt.mp h2) (not_lt.mp h1)
        subst hxy
        simp [strLtb, lt_irrefl] at h ⊢
        exact strLtb_asymm xs ys h

theorem strLtb_conn : ∀ a b : Str, strLtb a b = false → strLtb b a = false → a = b
  | [], [], _, _ => rfl
  | [], _ :: _, h, _ => by simp [strLtb] at h
  | _ :: _, [], _, h => by simp [strLtb] at h
  | x :: xs, y :: ys, h, h2 => by
    by_cases hxy : x < y
    · simp [strLtb, hxy] at h
    · by_cases hyx : y < x
      · simp [strLtb, hyx] at h2
      · have hx : x = y := le_antisymm (not_lt.mp hyx) (not_lt.mp hxy)
        subst hx
        simp [strLtb, lt_irrefl] at h h2
        rw [strLtb_conn xs ys h h2]

theorem strLtb_trans : ∀ a b c : Str,
    strLtb a b = true → strLtb b c = true → strLtb a c = true
  | [], _, [], _, hbc => by simp [strLtb] at hbc
  | [], _, _ :: _, _, _ => rfl
  | _ :: _, [], _, hab, _ => by simp [strLtb] at hab
  | _ :: _, _ :: _, [], _, hbc => by simp [strLtb] at hbc
  | x :: xs, y :: ys, z :: zs, hab, hbc => by
    by_cases h1 : x < y
    · by_cases h2 : y < z
      · simp [strLtb, lt_trans h1 h2]
      · by_cases h3 : z < y
        · simp [strLtb, h2, h3] at hbc
        · have : y = z := le_antisymm (not_lt.mp h3) (not_lt.mp h2)
          subst this
          simp [strLtb, h1]
    · by_cases h1b : y < x
      · simp [strLtb, h1, h1b] at hab
      · have hx : x = y := le_antisymm (not_lt.mp h1b) (not_lt.mp h1)
        subst hx
        simp [strLtb, lt_irrefl] at hab
        by_cases h2 : x < z
        · simp [strLtb, h2]
        · by_cases h3 : z < x
          · simp [strLtb, h2, h3] at hbc
          · have hz : x = z := le_antisymm (not_lt.mp h3) (not_lt.mp h2)
            subst hz
            simp [strLtb, lt_irrefl] at hbc ⊢
            exact strLtb_trans xs ys zs hab hbc

theorem room_claim_wins_eq_name : room_claim_wins = name_clame_wins := rfl

theorem wins_iff (a_owner : Str) (a_ts : Nat) (b_owner : Str) (b_ts : Nat) :
    name_clame_wins a_owner a_ts b_owner b_ts = true ↔
      (a_ts < b_ts ∨ (a_ts = b_ts ∧ strLtb a_owner b_owner = true)) := by
  unfold name_clame_wins
  by_cases h : a_ts = b_ts
  · subst h; simp [lt_irrefl]
  · simp [h, decide_eq_true_iff]

theorem wins_true_le (a_owner : Str) (a_ts : Nat) (b_owner : Str) (b_ts : Nat)
    (h : name_clame_wins a_owner a_ts b_owner b_ts = true) :
    ctLe a_owner a_ts b_owner b_ts := by
  rcases (wins_iff a_owner a_ts b_owner b_ts).mp h with hlt | ⟨heq, hstr⟩
  · exact Or.inl hlt
  · exact Or.inr ⟨heq, Or.inl hstr⟩

theorem wins_false_le (a_owner : Str) (a_ts : Nat) (b_owner : Str) (b_ts : Nat)
    (h : name_clame_wins a_owner a_ts b_owner b_ts = false) :
    ctLe b_owner b_ts a_owner a_ts := by
  unfold name_clame_wins at h
  by_cases hts : a_ts = b_ts
  · subst hts
    simp [lt_irrefl] at h
    cases hba : strLtb b_owner a_owner
    · exact Or.inr ⟨rfl, Or.inr (strLtb_conn a_owner b_owner h hba).symm⟩
    · exact Or.inr ⟨rfl, Or.inl hba⟩
  · simp [hts, decide_eq_true_iff] at h
    exact Or.inl (lt_of_le_of_ne h (Ne.symm hts))

theorem ctLe_refl (o : Str) (t : Nat) : ctLe o t o t := Or.inr ⟨rfl, Or.inr rfl⟩

theorem ctLe_trans {ao : Str} {at' : Nat} {bo : Str} {bt : Nat} {co : Str} {ct : Nat}
    (h1 : ctLe ao at' bo bt) (h2 : ctLe bo bt co ct) : ctLe ao at' co ct := by
  rcases h1 with h1 | ⟨he1, ho1⟩
  · rcases h2 with h2 | ⟨he2, _⟩
    · exact Or.inl (lt_trans h1 h2)
    · exact Or.inl (he2 ▸ h1)
  · rcases h2 with h2 | ⟨he2, ho2⟩
    · exact Or.inl (he1 ▸ h2)
    · refine Or.inr ⟨he1.trans he2, ?_⟩
      rcases ho1 with ho1 | ho1
      · rcases ho2 with ho2 | ho2
        · exact Or.inl (strLtb_trans ao bo co ho1 ho2)
        · exact Or.inl (ho2 ▸ ho1)
      · rcases ho2 with ho2 | ho2
        · exact Or.inl (ho1 ▸ ho2)
        · exact Or.inr (ho1.trans ho2)

theorem ctLe_antisymm {ao : Str} {at' : Nat} {bo : Str} {bt : Nat}
    (h1 : ctLe ao at' bo bt) (h2 : ctLe bo bt ao at') : at' = bt ∧ ao = bo := by
  rcases h1 with h1 | ⟨he1, ho1⟩
  · rcases h2 with h2 | ⟨he2, _⟩
    · exact absurd h2 (lt_asymm h1)
    · exact absurd h1 (he2 ▸ lt_irrefl bt)
  · rcases h2 with h2 | ⟨he2, ho2⟩
    · exact absurd h2 (he1 ▸ lt_irrefl at')
    · refine ⟨he1, ?_⟩
      rcases ho1 with ho1 | ho1
      · rcases ho2 with ho2 | ho2
        · have := strLtb_asymm ao bo ho1
          rw [this] at ho2
          exact absurd ho2 (by simp)
        · rw [ho2] at ho1
          rw [strLtb_irrefl] at ho1
          exact absurd ho1 (by simp)
      · exact ho1

theorem nameLe_trans {a b c : NameClaim} (h1 : a.le b) (h2 : b.le c) : a.le c :=
  ctLe_trans h1 h2

theorem roomLe_trans {a b c : RoomClaim} (h1 : a.le b) (h2 : b.le c) : a.le c :=
  ctLe_trans h1 h2

/-! Bridging the table operations to the per-key step functions. -/

theorem apply_owners_self (t : NameTable) (c : NameClaim) :
    (t.apply c).owners c.nick_lower = nameStep (t.owners c.nick_lower) c := by
  cases h : t.owners c.nick_lower with
  | none => simp [NameTable.apply, nameStep, h, NameTable.insert, NameClaim.toRec]
  | some r =>
    simp only [NameTable.apply, nameStep, h]
    by_cases ho : r.owner_peer_id = c.owner_peer_id
    · by_cases hn : c.nickname = r.nickname
      · simp [ho, hn, h]
      · simp [ho, hn, NameTable.insert]
    · cases hw : name_clame_wins c.owner_peer_id c.since_ts r.owner_peer_id r.since_ts
      · simp [ho, hw, NameTable.insert]
      · simp [ho, hw, NameTable.insert, NameClaim.toRec]

theorem apply_owners_ne (t : NameTable) (c : NameClaim) (k : Str)
    (hk : k ≠ c.nick_lower) : (t.apply c).owners k = t.owners k := by
  cases h : t.owners c.nick_lower with
  | none => simp [NameTable.apply, h, NameTable.insert, hk]
  | some r =>
    simp only [NameTable.apply, h]
    by_cases ho : r.owner_peer_id = c.owner_peer_id
    · by_cases hn : c.nickname = r.nickname
      · simp [ho, hn]
      · simp [ho, hn, NameTable.insert, hk]
    · cases hw : name_clame_wins c.owner_peer_id c.since_ts r.owner_peer_id r.since_ts <;>
        simp [ho, hw, NameTable.insert, hk]

theorem applyList_owners (k : Str) :
    ∀ (l : List NameClaim), (∀ c ∈ l, c.nick_lower = k) →
      ∀ t : NameTable, (t.applyList l).owners k = l.foldl nameStep (t.owners k)
  | [], _, _ => rfl
  | c :: cs, hk, t => by
    have hck : c.nick_lower = k := hk c (List.mem_cons_self c cs)
    have hrest : ∀ x ∈ cs, x.nick_lower = k := fun x hx => hk x (List.mem_cons_of_mem c hx)
    show ((t.apply c).applyList cs).owners k = cs.foldl nameStep (nameStep (t.owners k) c)
    rw [applyList_owners k cs hrest (t.apply c), ← hck, apply_owners_self]

theorem nameStep_toRec (a c : NameClaim)
    (hco : a.owner_peer_id = c.owner_peer_id → a = c) :
    nameStep (some a.toRec) c = some (nameMin2 a c).toRec := by
  by_cases ho : a.owner_peer_id = c.owner_peer_id
  · have hac := hco ho
    subst hac
    simp [nameStep, nameMin2, NameClaim.toRec, ite_self]
  · cases hw : name_clame_wins c.owner_peer_id c.since_ts a.owner_peer_id a.since_ts <;>
      simp [nameStep, nameMin2, NameClaim.toRec, ho, hw]

theorem nameMin2_cases (a c : NameClaim) : nameMin2 a c = a ∨ nameMin2 a c = c := by
  unfold nameMin2
  split
  · exact Or.inr rfl
  · exact Or.inl rfl

theorem nameMin2_le_left (a c : NameClaim) : (nameMin2 a c).le a := by
  cases hw : name_clame_wins c.owner_peer_id c.since_ts a.owner_peer_id a.since_ts
  · simp only [nameMin2, hw, Bool.false_eq_true, if_false]
    exact ctLe_refl _ _
  · simp only [nameMin2, hw, if_true]
    exact wins_true_le _ _ _ _ hw

theorem nameMin2_le_right (a c : NameClaim) : (nameMin2 a c).le c := by
  cases hw : name_clame_wins c.owner_peer_id c.since_ts a.owner_peer_id a.since_ts
  · simp only [nameMin2, hw, Bool.false_eq_true, if_false]
    exact wins_false_le _ _ _ _ hw
  · simp only [nameMin2, hw, if_true]
    exact ctLe_refl _ _

theorem nameMinC_mem : ∀ (l : List NameClaim) (a : NameClaim), nameMinC a l ∈ a :: l
  | [], a => List.mem_cons_self a []
  | x :: xs, a => by
    have h := nameMinC_mem xs (nameMin2 a x)
    show nameMinC (nameMin2 a x) xs ∈ a :: x :: xs
    rcases List.mem_cons.mp h with h | h
    · rcases nameMin2_cases a x with h2 | h2 <;> rw [h, h2] <;> simp
    · simp [h]

theorem nameMinC_le : ∀ (l : List NameClaim) (a y : NameClaim),
    y ∈ a :: l → (nameMinC a l).le y
  | [], a, y, hy => by
    have hya : y = a := by simpa using hy
    subst hya
    exact ctLe_refl _ _
  | x :: xs, a, y, hy => by
    have hmin : (nameMinC (nameMin2 a x) xs).le (nameMin2 a x) :=
      nameMinC_le xs (nameMin2 a x) (nameMin2 a x) (List.mem_cons_self _ _)
    show (nameMinC (nameMin2 a x) xs).le y
    rcases List.mem_cons.mp hy with h | h
    · rw [h]
      exact nameLe_trans hmin (nameMin2_le_left a x)
    · rcases List.mem_cons.mp h with h2 | h2
      · rw [h2]
        exact nameLe_trans hmin (nameMin2_le_right a x)
      · exact nameMinC_le xs (nameMin2 a x) y (List.mem_cons_of_mem _ h2)

theorem foldl_nameStep_minC : ∀ (l : List NameClaim) (a : NameClaim),
    (∀ x ∈ a :: l, ∀ y ∈ a :: l, x.owner_peer_id = y.owner_peer_id → x = y) →
    l.foldl nameStep (some a.toRec) = some (nameMinC a l).toRec
  | [], _, _ => rfl
  | x :: xs, a, hco => by
    have h1 : nameStep (some a.toRec) x = some (nameMin2 a x).toRec :=
      nameStep_toRec a x (hco a (by simp) x (by simp))
    show xs.foldl nameStep (nameStep (some a.toRec) x) = some (nameMinC (nameMin2 a x) xs).toRec
    rw [h1]
    apply foldl_nameStep_minC xs (nameMin2 a x)
    have hsub : ∀ z, z ∈ nameMin2 a x :: xs → z ∈ a :: x :: xs := by
      intro z hz
      rcases List.mem_cons.mp hz with hz | hz
      · rcases nameMin2_cases a x with h2 | h2 <;> rw [hz, h2] <;> simp
      · exact List.mem_cons_of_mem _ (List.mem_cons_of_mem _ hz)
    exact fun p hp q hq hpq => hco p (hsub p hp) q (hsub q hq) hpq

theorem nameTable_converge (k : Str) (l1 l2 : List NameClaim)
    (hk1 : ∀ c ∈ l1, c.nick_lower = k)
    (hco : ∀ a ∈ l1, ∀ b ∈ l1, a.owner_peer_id = b.owner_peer_id → a = b)
    (hmem : ∀ c, c ∈ l1 ↔ c ∈ l2) :
    (NameTable.empty.applyList l1).owner k = (NameTable.empty.applyList l2).owner k := by
  have hk2 : ∀ c ∈ l2, c.nick_lower = k := fun c h => hk1 c ((hmem c).mpr h)
  have hco2 : ∀ a ∈ l2, ∀ b ∈ l2, a.owner_peer_id = b.owner_peer_id → a = b :=
    fun a ha b hb => hco a ((hmem a).mpr ha) b ((hmem b).mpr hb)
  show (NameTable.empty.applyList l1).owners k = (NameTable.empty.applyList l2).owners k
  rw [applyList_owners k l1 hk1 NameTable.empty, applyList_owners k l2 hk2 NameTable.empty]
  cases l1 with
  | nil =>
    cases l2 with
    | nil => rfl
    | cons b t2 => exact absurd ((hmem b).mpr (List.mem_cons_self b t2)) (List.not_mem_nil b)
  | cons a t1 =>
    cases l2 with
    | nil => exact absurd ((hmem a).mp (List.mem_cons_self a t1)) (List.not_mem_nil a)
    | cons b t2 =>
      show t1.foldl nameStep (some a.toRec) = t2.foldl nameStep (some b.toRec)
      rw [foldl_nameStep_minC t1 a hco, foldl_nameStep_minC t2 b hco2]
      have m1mem : nameMinC a t1 ∈ a :: t1 := nameMinC_mem t1 a
      have m2mem : nameMinC b t2 ∈ b :: t2 := nameMinC_mem t2 b
      have m2mem1 : nameMinC b t2 ∈ a :: t1 := (hmem _).mpr m2mem
      have m1mem2 : nameMinC a t1 ∈ b :: t2 := (hmem _).mp m1mem
      have le12 : (nameMinC a t1).le (nameMinC b t2) := nameMinC_le t1 a _ m2mem1
      have le21 : (nameMinC b t2).le (nameMinC a t1) := nameMinC_le t2 b _ m1mem2
      have heq := ctLe_antisymm le12 le21
      rw [hco _ m1mem _ m2mem1 heq.2]

theorem apply_claim_names_self (t : RoomTable) (c : RoomClaim) :
    (t.apply_claim c).names c.name_lower = roomStep (t.names c.name_lower) c := by
  cases h : t.names c.name_lower with
  | none => simp [RoomTable.apply_claim, roomStep, h, RoomTable.insert, RoomClaim.toRec]
  | some r =>
    simp only [RoomTable.apply_claim, roomStep, h]
    by_cases ho : r.owner_peer_id = c.owner_peer_id
    · by_cases hn : c.name ≠ r.name ∨ c.room_id ≠ r.room_id
      · simp [ho, hn, RoomTable.insert]
      · simp [ho, hn, h]
    · cases hw : room_claim_wins c.owner_peer_id c.since_ts r.owner_peer_id r.since_ts
      · simp [ho, hw, RoomTable.insert]
      · simp [ho, hw, RoomTable.insert, RoomClaim.toRec]

theorem apply_claim_names_ne (t : RoomTable) (c : RoomClaim) (k : Str)
    (hk : k ≠ c.name_lower) : (t.apply_claim c).names k = t.names k := by
  cases h : t.names c.name_lower with
  | none => simp [RoomTable.apply_claim, h, RoomTable.insert, hk]
  | some r =>
    simp only [RoomTable.apply_claim, h]
    by_cases ho : r.owner_peer_id = c.owner_peer_id
    · by_cases hn : c.name ≠ r.name ∨ c.room_id ≠ r.room_id
      · simp [ho, hn, RoomTable.insert, hk]
      · simp [ho, hn]
    · cases hw : room_claim_wins c.owner_peer_id c.since_ts r.owner_peer_id r.since_ts <;>
        simp [ho, hw, RoomTable.insert, hk]

theorem applyList_names (k : Str) :
    ∀ (l : List RoomClaim), (∀ c ∈ l, c.name_lower = k) →
      ∀ t : RoomTable, (t.applyList l).names k = l.foldl roomStep (t.names k)
  | [], _, _ => rfl
  | c :: cs, hk, t => by
    have hck : c.name_lower = k := hk c (List.mem_cons_self c cs)
    have hrest : ∀ x ∈ cs, x.name_lower = k := fun x hx => hk x (List.mem_cons_of_mem c hx)
    show ((t.apply_claim c).applyList cs).names k = cs.foldl roomStep (roomStep (t.names k) c)
    rw [applyList_names k cs hrest (t.apply_claim c), ← hck, apply_claim_names_self]

theorem roomStep_toRec (a c : RoomClaim)
    (hco : a.owner_peer_id = c.owner_peer_id → a = c) :
    roomStep (some a.toRec) c = some (roomMin2 a c).toRec := by
  by_cases ho : a.owner_peer_id = c.owner_peer_id
  · have hac := hco ho
    subst hac
    simp [roomStep, roomMin2, RoomClaim.toRec, ite_self]
  · cases hw : room_claim_wins c.owner_peer_id c.since_ts a.owner_peer_id a.since_ts <;>
      simp [roomStep, roomMin2, RoomClaim.toRec, ho, hw]

theorem roomMin2_cases (a c : RoomClaim) : roomMin2 a c = a ∨ roomMin2 a c = c := by
  unfold roomMin2
  split
  · exact Or.inr rfl
  · exact Or.inl rfl

theorem roomMin2_le_left (a c : RoomClaim) : (roomMin2 a c).le a := by
  cases hw : room_claim_wins c.owner_peer_id c.since_ts a.owner_peer_id a.since_ts
  · simp only [roomMin2, hw, Bool.false_eq_true, if_false]
    exact ctLe_refl _ _
  · simp only [roomMin2, hw, if_true]
    exact wins_true_le _ _ _ _ (room_claim_wins_eq_name ▸ hw)

theorem roomMin2_le_right (a c : RoomClaim) : (roomMin2 a c).le c := by
  cases hw : room_claim_wins c.owner_peer_id c.since_ts a.owner_peer_id a.since_ts
  · simp only [roomMin2, hw, Bool.false_eq_true, if_false]
    exact wins_false_le _ _ _ _ (room_claim_wins_eq_name ▸ hw)
  · simp only [roomMin2, hw, if_true]
    exact ctLe_refl _ _

theorem roomMinC_mem : ∀ (l : List RoomClaim) (a : RoomClaim), roomMinC a l ∈ a :: l
  | [], a => List.mem_cons_self a []
  | x :: xs, a => by
    have h := roomMinC_mem xs (roomMin2 a x)
    show roomMinC (roomMin2 a x) xs ∈ a :: x :: xs
    rcases List.mem_cons.mp h with h | h
    · rcases roomMin2_cases a x with h2 | h2 <;> rw [h, h2] <;> simp
    · simp [h]

theorem roomMinC_le : ∀ (l : List RoomClaim) (a y : RoomClaim),
    y ∈ a :: l → (roomMinC a l).le y
  | [], a, y, hy => by
    have hya : y = a := by simpa using hy
    subst hya
    exact ctLe_refl _ _
  | x :: xs, a, y, hy => by
    have hmin : (roomMinC (roomMin2 a x) xs).le (roomMin2 a x) :=
      roomMinC_le xs (roomMin2 a x) (roomMin2 a x) (List.mem_cons_self _ _)
    show (roomMinC (roomMin2 a x) xs).le y
    rcases List.mem_cons.mp hy with h | h
    · rw [h]
      exact roomLe_trans hmin (roomMin2_le_left a x)
    · rcases List.mem_cons.mp h with h2 | h2
      · rw [h2]
        exact roomLe_trans hmin (roomMin2_le_right a x)
      · exact roomMinC_le xs (roomMin2 a x) y (List.mem_cons_of_mem _ h2)

theorem foldl_roomStep_minC : ∀ (l : List RoomClaim) (a : RoomClaim),
    (∀ x ∈ a :: l, ∀ y ∈ a :: l, x.owner_peer_id = y.owner_peer_id → x = y) →
    l.foldl roomStep (some a.toRec) = some (roomMinC a l).toRec
  | [], _, _ => rfl
  | x :: xs, a, hco => by
    have h1 : roomStep (some a.toRec) x = some (roomMin2 a x).toRec :=
      roomStep_toRec a x (hco a (by simp) x (by simp))
    show xs.foldl roomStep (roomStep (some a.toRec) x) = some (roomMinC (roomMin2 a x) xs).toRec
    rw [h1]
    apply foldl_roomStep_minC xs (roomMin2 a x)
    have hsub : ∀ z, z ∈ roomMin2 a x :: xs → z ∈ a :: x :: xs := by
      intro z hz
      rcases List.mem_cons.mp hz with hz | hz
      · rcases roomMin2_cases a x with h2 | h2 <;> rw [hz, h2] <;> simp
      · exact List.mem_cons_of_mem _ (List.mem_cons_of_mem _ hz)
    exact fun p hp q hq hpq => hco p (hsub p hp) q (hsub q hq) hpq

theorem roomTable_converge (k : Str) (l1 l2 : List RoomClaim)
    (hk1 : ∀ c ∈ l1, c.name_lower = k)
    (hco : ∀ a ∈ l1, ∀ b ∈ l1, a.owner_peer_id = b.owner_peer_id → a = b)
    (hmem : ∀ c, c ∈ l1 ↔ c ∈ l2) :
    (RoomTable.empty.applyList l1).owner_of k = (RoomTable.empty.applyList l2).owner_of k := by
  have hk2 : ∀ c ∈ l2, c.name_lower = k := fun c h => hk1 c ((hmem c).mpr h)
  have hco2 : ∀ a ∈ l2, ∀ b ∈ l2, a.owner_peer_id = b.owner_peer_id → a = b :=
    fun a ha b hb => hco a ((hmem a).mpr ha) b ((hmem b).mpr hb)
  show (RoomTable.empty.applyList l1).names k = (RoomTable.empty.applyList l2).names k
  rw [applyList_names k l1 hk1 RoomTable.empty, applyList_names k l2 hk2 RoomTable.empty]
  cases l1 with
  | nil =>
    cases l2 with
    | nil => rfl
    | cons b t2 => exact absurd ((hmem b).mpr (List.mem_cons_self b t2)) (List.not_mem_nil b)
  | cons a t1 =>
    cases l2 with
    | nil => exact absurd ((hmem a).mp (List.mem_cons_self a t1)) (List.not_mem_nil a)
    | cons b t2 =>
      show t1.foldl roomStep (some a.toRec) = t2.foldl roomStep (some b.toRec)
      rw [foldl_roomStep_minC t1 a hco, foldl_roomStep_minC t2 b hco2]
      have m1mem : roomMinC a t1 ∈ a :: t1 := roomMinC_mem t1 a
      have m2mem : roomMinC b t2 ∈ b :: t2 := roomMinC_mem t2 b
      have m2mem1 : roomMinC b t2 ∈ a :: t1 := (hmem _).mpr m2mem
      have m1mem2 : roomMinC a t1 ∈ b :: t2 := (hmem _).mp m1mem
      have le12 : (roomMinC a t1).le (roomMinC b t2) := roomMinC_le t1 a _ m2mem1
      have le21 : (roomMinC b t2).le (roomMinC a t1) := roomMinC_le t2 b _ m1mem2
      have heq := ctLe_antisymm le12 le21
      rw [hco _ m1mem _ m2mem1 heq.2]

/-! Monotonicity of the stored timestamps. -/

theorem apply_since_mono (t : NameTable) (c : NameClaim) (k : Str) (r : NameRec)
    (h : t.owners k = some r) :
    ∃ r2 : NameRec, (t.apply c).owners k = some r2 ∧ r2.since_ts ≤ r.since_ts := by
  by_cases hk : k = c.nick_lower
  · subst hk
    rw [apply_owners_self, h]
    by_cases ho : r.owner_peer_id = c.owner_peer_id
    · by_cases hn : c.nickname = r.nickname
      · exact ⟨r, by simp [nameStep, ho, hn], Nat.le_refl _⟩
      · exact ⟨⟨r.owner_peer_id, r.since_ts, c.nickname⟩, by simp [nameStep, ho, hn],
          Nat.le_refl _⟩
    · cases hw : name_clame_wins c.owner_peer_id c.since_ts r.owner_peer_id r.since_ts
      · exact ⟨r, by simp [nameStep, ho, hw], Nat.le_refl _⟩
      · refine ⟨c.toRec, by simp [nameStep, ho, hw], ?_⟩
        rcases wins_true_le _ _ _ _ hw with hlt | ⟨heq, _⟩
        · exact Nat.le_of_lt hlt
        · exact Nat.le_of_eq heq
  · rw [apply_owners_ne t c k hk, h]
    exact ⟨r, rfl, Nat.le_refl _⟩

theorem applyList_since_mono :
    ∀ (l : List NameClaim) (t : NameTable) (k : Str) (r : NameRec),
      t.owners k = some r →
      ∃ r2, (t.applyList l).owners k = some r2 ∧ r2.since_ts ≤ r.since_ts
  | [], _, _, r, h => ⟨r, h, Nat.le_refl _⟩
  | c :: cs, t, k, r, h => by
    obtain ⟨r1, h1, hle1⟩ := apply_since_mono t c k r h
    obtain ⟨r2, h2, hle2⟩ := applyList_since_mono cs (t.apply c) k r1 h1
    exact ⟨r2, h2, Nat.le_trans hle2 hle1⟩

theorem apply_claim_since_mono (t : RoomTable) (c : RoomClaim) (k : Str) (r : RoomRec)
    (h : t.names k = some r) :
    ∃ r2 : RoomRec, (t.apply_claim c).names k = some r2 ∧ r2.since_ts ≤ r.since_ts := by
  by_cases hk : k = c.name_lower
  · subst hk
    rw [apply_claim_names_self, h]
    by_cases ho : r.owner_peer_id = c.owner_peer_id
    · by_cases hn : c.name ≠ r.name ∨ c.room_id ≠ r.room_id
      · exact ⟨⟨r.owner_peer_id, r.since_ts, c.name, c.room_id⟩,
          by simp [roomStep, ho, hn], Nat.le_refl _⟩
      · exact ⟨r, by simp [roomStep, ho, hn], Nat.le_refl _⟩
    · cases hw : room_claim_wins c.owner_peer_id c.since_ts r.owner_peer_id r.since_ts
      · exact ⟨r, by simp [roomStep, ho, hw], Nat.le_refl _⟩
      · refine ⟨c.toRec, by simp [roomStep, ho, hw], ?_⟩
        rcases wins_true_le _ _ _ _ (room_claim_wins_eq_name ▸ hw) with hlt | ⟨heq, _⟩
        · exact Nat.le_of_lt hlt
        · exact Nat.le_of_eq heq
  · rw [apply_claim_names_ne t c k hk, h]
    exact ⟨r, rfl, Nat.le_refl _⟩

theorem applyList_claim_since_mono :
    ∀ (l : List RoomClaim) (t : RoomTable) (k : Str) (r : RoomRec),
      t.names k = some r →
      ∃ r2, (t.applyList l).names k = some r2 ∧ r2.since_ts ≤ r.since_ts
  | [], _, _, r, h => ⟨r, h, Nat.le_refl _⟩
  | c :: cs, t, k, r, h => by
    obtain ⟨r1, h1, hle1⟩ := apply_claim_since_mono t c k r h
    obtain ⟨r2, h2, hle2⟩ := applyList_claim_since_mono cs (t.apply_claim c) k r1 h1
    exact ⟨r2, h2, Nat.le_trans hle2 hle1⟩

/-! The collection window skips malformed messages. -/

theorem filterMap_id_cons_none {α : Type} (ms : List (Option α)) :
    List.filterMap id (none :: ms) = List.filterMap id ms := by
  simp

theorem filterMap_id_cons_some {α : Type} (e : α) (ms : List (Option α)) :
    List.filterMap id (some e :: ms) = e :: List.filterMap id ms := by
  simp

theorem collectNames_skip_malformed :
    ∀ (ms : List (Option (Envelope NameClaim))) (t : NameTable),
      collectNames t ms = collectNames t ((ms.filterMap id).map some)
  | [], _ => rfl
  | none :: ms, t => by
    show collectNames t ms = collectNames t ((List.filterMap id (none :: ms)).map some)
    rw [filterMap_id_cons_none]
    exact collectNames_skip_malformed ms t
  | some e :: ms, t => by
    show collectNames (t.apply e.body) ms
        = collectNames t ((List.filterMap id (some e :: ms)).map some)
    rw [filterMap_id_cons_some]
    exact collectNames_skip_malformed ms (t.apply e.body)

theorem collectRooms_skip_malformed :
    ∀ (ms : List (Option (Envelope RoomClaim))) (t : RoomTable),
      collectRooms t ms = collectRooms t ((ms.filterMap id).map some)
  | [], _ => rfl
  | none :: ms, t => by
    show collectRooms t ms = collectRooms t ((List.filterMap id (none :: ms)).map some)
    rw [filterMap_id_cons_none]
    exact collectRooms_skip_malformed ms t
  | some e :: ms, t => by
    show collectRooms (t.apply_claim e.body) ms
        = collectRooms t ((List.filterMap id (some e :: ms)).map some)
    rw [filterMap_id_cons_some]
    exact collectRooms_skip_malformed ms (t.apply_claim e.body)

/-! The seeded record survives a window in which every claim on the key agrees
with it on owner and display. -/

theorem collectNames_fixed :
    ∀ (ms : List (Option (Envelope NameClaim))) (t : NameTable) (K : Str) (R : NameRec),
      t.owners K = some R →
      (∀ env ∈ ms.filterMap id, env.body.nick_lower = K →
        env.body.owner_peer_id = R.owner_peer_id ∧ env.body.nickname = R.nickname) →
      (collectNames t ms).owners K = some R
  | [], _, _, _, ht, _ => ht
  | none :: ms, t, K, R, ht, h => by
    show (collectNames t ms).owners K = some R
    apply collectNames_fixed ms t K R ht
    intro env henv
    apply h env
    rw [filterMap_id_cons_none]
    exact henv
  | some e :: ms, t, K, R, ht, h => by
    show (collectNames (t.apply e.body) ms).owners K = some R
    have he : e ∈ List.filterMap id (some e :: ms) := by
      rw [filterMap_id_cons_some]
      exact List.mem_cons_self _ _
    have hstep : (t.apply e.body).owners K = some R := by
      by_cases hk : e.body.nick_lower = K
      · obtain ⟨ho, hn⟩ := h e he hk
        subst hk
        rw [apply_owners_self, ht]
        simp [nameStep, ho, hn]
      · rw [apply_owners_ne t e.body K (fun hx => hk hx.symm)]
        exact ht
    apply collectNames_fixed ms (t.apply e.body) K R hstep
    intro env henv
    apply h env
    rw [filterMap_id_cons_some]
    exact List.mem_cons_of_mem _ henv

/-! Byte-level facts about the fallback suffix slice. -/

theorem utf8Len_pos (c : Char) : 1 ≤ utf8Len c := by
  unfold utf8Len
  split_ifs <;> omega

theorem utf8Len_ascii (c : Char) (h : c.toNat < 0x80) : utf8Len c = 1 := by
  unfold utf8Len
  rw [if_pos h]

theorem takeBytes_full : ∀ s : Str, takeBytes s (byteLen s) = some s
  | [] => rfl
  | c :: cs => by
    have hpos := utf8Len_pos c
    show takeBytes (c :: cs) (utf8Len c + byteLen cs) = some (c :: cs)
    obtain ⟨m, hm⟩ : ∃ m, utf8Len c + byteLen cs = m + 1 :=
      ⟨utf8Len c + byteLen cs - 1, by omega⟩
    rw [hm]
    simp only [takeBytes]
    rw [if_pos (by omega : utf8Len c ≤ m + 1)]
    have h2 : m + 1 - utf8Len c = byteLen cs := by omega
    rw [h2, takeBytes_full cs]
    rfl

theorem byteLen_ascii : ∀ s : Str, strAscii s → byteLen s = s.length
  | [], _ => rfl
  | c :: cs, h => by
    have hc : c.toNat < 0x80 := h c (List.mem_cons_self c cs)
    have hcs : strAscii cs := fun x hx => h x (List.mem_cons_of_mem c hx)
    show utf8Len c + byteLen cs = cs.length + 1
    rw [utf8Len_ascii c hc, byteLen_ascii cs hcs]
    omega

theorem takeBytes_ascii : ∀ (s : Str) (k : Nat), strAscii s → k ≤ s.length →
    takeBytes s k = some (s.take k)
  | [], 0, _, _ => rfl
  | _ :: _, 0, _, _ => rfl
  | [], _ + 1, _, hk => by simp at hk
  | c :: cs, k + 1, h, hk => by
    have hc := utf8Len_ascii c (h c (List.mem_cons_self c cs))
    simp only [takeBytes]
    rw [if_pos (by omega : utf8Len c ≤ k + 1)]
    have h2 : k + 1 - utf8Len c = k := by omega
    rw [h2, takeBytes_ascii cs k (fun x hx => h x (List.mem_cons_of_mem c hx))
      (by simpa using hk)]
    rfl

theorem fallback_short (desired my : Str) (h : byteLen my ≤ 6) :
    claim_unique_fallback desired my = some (desired ++ '-' :: my, false) := by
  unfold claim_unique_fallback
  rw [Nat.min_eq_right h, takeBytes_full]
  rfl

theorem fallback_ascii (desired my : Str) (h : strAscii my) :
    claim_unique_fallback desired my
      = some (desired ++ '-' :: my.take (min 6 my.length), false) := by
  unfold claim_unique_fallback
  rw [byteLen_ascii my h, takeBytes_ascii my (min 6 my.length) h (Nat.min_le_right _ _)]
  rfl

/-! The boolean string comparison agrees with the mathematical lexicographic
order on character lists. -/

theorem strLtb_iff_lex : ∀ (a b : Str), strLtb a b = true ↔ List.Lex (· < ·) a b
  | a, [] => by
    constructor
    · intro h
      cases a <;> simp [strLtb] at h
    · intro h
      cases h
  | [], b :: bs => by
    simp only [strLtb]
    exact ⟨fun _ => List.Lex.nil, fun _ => trivial⟩
  | a :: as, b :: bs => by
    constructor
    · intro h
      by_cases h1 : a < b
      · exact List.Lex.rel h1
      · by_cases h2 : b < a
        · simp [strLtb, h1, h2] at h
        · have hab : a = b := le_antisymm (not_lt.mp h2) (not_lt.mp h1)
          subst hab
          simp [strLtb, lt_irrefl] at h
          exact List.Lex.cons ((strLtb_iff_lex as bs).mp h)
    · intro h
      cases h with
      | rel hr => simp [strLtb, hr]
      | cons h2 =>
        simp [strLtb, lt_irrefl]
        exact (strLtb_iff_lex as bs).mpr h2

theorem wins_iff_lex (a_owner : Str) (a_ts : Nat) (b_owner : Str) (b_ts : Nat) :
    name_clame_wins a_owner a_ts b_owner b_ts = true ↔
      (a_ts < b_ts ∨ (a_ts = b_ts ∧ List.Lex (· < ·) a_owner b_owner)) := by
  rw [wins_iff]
  constructor
  · rintro (h | ⟨he, hs⟩)
    · exact Or.inl h
    · exact Or.inr ⟨he, (strLtb_iff_lex a_owner b_owner).mp hs⟩
  · rintro (h | ⟨he, hs⟩)
    · exact Or.inl h
    · exact Or.inr ⟨he, (strLtb_iff_lex a_owner b_owner).mpr hs⟩

/-! Claim theorems. -/

/-- C1, counterexample to the claim as stated: the same two-claim multiset on
key `k` (both claims from owner `a`, with timestamps 50 and 100) applied to an
empty `NameTable` in its two permutations yields two different final records,
because the same-owner path keeps the timestamp already stored.  So `apply` is
not order-insensitive for arbitrary multisets. -/
theorem claim_C1_counterexample :
    (NameTable.empty.applyList
        [⟨str "k", str "K", str "a", 50⟩, ⟨str "k", str "K", str "a", 100⟩]).owner (str "k")
      = some ⟨str "a", 50, str "K"⟩
  ∧ (NameTable.empty.applyList
        [⟨str "k", str "K", str "a", 100⟩, ⟨str "k", str "K", str "a", 50⟩]).owner (str "k")
      = some ⟨str "a", 100, str "K"⟩
  ∧ some (⟨str "a", 50, str "K"⟩ : NameRec) ≠ some ⟨str "a", 100, str "K"⟩ :=
  ⟨by decide, by decide, by decide⟩

/-- C1 (amended): for every finite multiset of claims on a fixed key in which
no owner appears with two distinct claims (each owner's claims are identical —
in particular when all owners are distinct, as in the spec example), applying
the claims via `NameTable.apply` (and likewise `RoomTable.apply_claim`) to an
empty table in any permutation and with any repetitions yields the same final
record for that key. -/
theorem claim_C1 :
    (∀ (k : Str) (l1 l2 : List NameClaim),
      (∀ c ∈ l1, c.nick_lower = k) →
      (∀ a ∈ l1, ∀ b ∈ l1, a.owner_peer_id = b.owner_peer_id → a = b) →
      (∀ c, c ∈ l1 ↔ c ∈ l2) →
      (NameTable.empty.applyList l1).owner k = (NameTable.empty.applyList l2).owner k)
  ∧ (∀ (k : Str) (l1 l2 : List RoomClaim),
      (∀ c ∈ l1, c.name_lower = k) →
      (∀ a ∈ l1, ∀ b ∈ l1, a.owner_peer_id = b.owner_peer_id → a = b) →
      (∀ c, c ∈ l1 ↔ c ∈ l2) →
      (RoomTable.empty.applyList l1).owner_of k = (RoomTable.empty.applyList l2).owner_of k) :=
  ⟨nameTable_converge, roomTable_converge⟩

/-- C1, witness: the spec example claims (owners `b`, `a`, `z` with timestamps
100, 100, 50 on one key) applied in two different orders, the second with a
repetition, converge to the record of owner `z`. -/
theorem claim_C1_witness :
    (∀ c ∈ ([⟨str "k", str "K", str "b", 100⟩, ⟨str "k", str "K", str "a", 100⟩,
        ⟨str "k", str "K", str "z", 50⟩] : List NameClaim), c.nick_lower = str "k")
  ∧ (∀ a ∈ ([⟨str "k", str "K", str "b", 100⟩, ⟨str "k", str "K", str "a", 100⟩,
        ⟨str "k", str "K", str "z", 50⟩] : List NameClaim),
      ∀ b ∈ ([⟨str "k", str "K", str "b", 100⟩, ⟨str "k", str "K", str "a", 100⟩,
        ⟨str "k", str "K", str "z", 50⟩] : List NameClaim),
      a.owner_peer_id = b.owner_peer_id → a = b)
  ∧ (NameTable.empty.applyList
      [⟨str "k", str "K", str "b", 100⟩, ⟨str "k", str "K", str "a", 100⟩,
        ⟨str "k", str "K", str "z", 50⟩]).owner (str "k")
    = (NameTable.empty.applyList
      [⟨str "k", str "K", str "z", 50⟩, ⟨str "k", str "K", str "a", 100⟩,
        ⟨str "k", str "K", str "b", 100⟩, ⟨str "k", str "K", str "b", 100⟩]).owner (str "k")
  ∧ (NameTable.empty.applyList
      [⟨str "k", str "K", str "b", 100⟩, ⟨str "k", str "K", str "a", 100⟩,
        ⟨str "k", str "K", str "z", 50⟩]).owner (str "k")
    = some ⟨str "z", 50, str "K"⟩ := by
  refine ⟨by decide, by decide, ?_, by decide⟩
  apply claim_C1.1 (str "k")
  · decide
  · decide
  · intro c
    simp only [List.mem_cons, List.not_mem_nil, or_false]
    tauto

/-- C2: both conflict-resolution functions (`name_clame_wins` in protocol.rs
and `room_claim_wins` in discovery.rs) return true exactly when the first
timestamp is smaller, or the timestamps tie and the first owner id is
lexicographically smaller; in particular the claims of owners `bob` and
`alice` with equal timestamp 100 resolve to `alice`. -/
theorem claim_C2 :
    (∀ (a_owner : Str) (a_ts : Nat) (b_owner : Str) (b_ts : Nat),
      name_clame_wins a_owner a_ts b_owner b_ts = true ↔
        (a_ts < b_ts ∨ (a_ts = b_ts ∧ List.Lex (· < ·) a_owner b_owner)))
  ∧ (∀ (a_owner : Str) (a_ts : Nat) (b_owner : Str) (b_ts : Nat),
      room_claim_wins a_owner a_ts b_owner b_ts = true ↔
        (a_ts < b_ts ∨ (a_ts = b_ts ∧ List.Lex (· < ·) a_owner b_owner)))
  ∧ name_clame_wins (str "alice") 100 (str "bob") 100 = true
  ∧ room_claim_wins (str "alice") 100 (str "bob") 100 = true
  ∧ name_clame_wins (str "bob") 100 (str "alice") 100 = false
  ∧ room_claim_wins (str "bob") 100 (str "alice") 100 = false := by
  refine ⟨wins_iff_lex, ?_, by decide, by decide, by decide, by decide⟩
  intro a_owner a_ts b_owner b_ts
  rw [room_claim_wins_eq_name]
  exact wins_iff_lex a_owner a_ts b_owner b_ts

/-- C3: for any two claims with distinct owner ids, each resolution function
answers true on one argument order and false on the other, so the rule is a
strict total comparison between distinct claimants and gives the same verdict
on every peer. -/
theorem claim_C3 : ∀ (a_owner : Str) (a_ts : Nat) (b_owner : Str) (b_ts : Nat),
    a_owner ≠ b_owner →
    name_clame_wins a_owner a_ts b_owner b_ts = !name_clame_wins b_owner b_ts a_owner a_ts
  ∧ room_claim_wins a_owner a_ts b_owner b_ts = !room_claim_wins b_owner b_ts a_owner a_ts := by
  intro ao ats bo bts hne
  have main : name_clame_wins ao ats bo bts = !name_clame_wins bo bts ao ats := by
    by_cases hts : ats = bts
    · subst hts
      simp only [name_clame_wins]
      have h0 : ¬(ats ≠ ats) := fun h => h rfl
      rw [if_neg h0, if_neg h0]
      cases hab : strLtb ao bo
      · cases hba : strLtb bo ao
        · exact absurd (strLtb_conn ao bo hab hba) hne
        · rfl
      · rw [strLtb_asymm ao bo hab]
        rfl
    · simp only [name_clame_wins]
      rw [if_pos hts, if_pos (Ne.symm hts)]
      rcases lt_or_gt_of_ne hts with h | h
      · rw [decide_eq_true h, decide_eq_false (lt_asymm h)]
        rfl
      · rw [decide_eq_false (lt_asymm h), decide_eq_true h]
        rfl
  exact ⟨main, by rw [room_claim_wins_eq_name]; exact main⟩

/-- C3, witness at owners `a` and `b` with timestamps 1 and 2. -/
theorem claim_C3_witness :
    str "a" ≠ str "b"
  ∧ (name_clame_wins (str "a") 1 (str "b") 2 = !name_clame_wins (str "b") 2 (str "a") 1
     ∧ room_claim_wins (str "a") 1 (str "b") 2 = !room_claim_wins (str "b") 2 (str "a") 1) :=
  ⟨by decide, claim_C3 (str "a") 1 (str "b") 2 (by decide)⟩

/-- C4, counterexample to the claim as stated: a window that delivers a claim
from the same owner (`p1`, so no claim from a different owner arrives) but with
a different display casing makes `claim_unique` return that display instead of
the original desired name, although it still returns owned = true. -/
theorem claim_C4_counterexample :
    (∀ env ∈ ([some ⟨1, Kind.Room, Scope.Global, none, str "p1", str "m1", 100,
        ⟨str "alice", str "WEIRD", str "p1", 100⟩⟩] :
        List (Option (Envelope NameClaim))).filterMap id,
      env.body.owner_peer_id = str "p1")
  ∧ claim_unique (str "Alice") (str "p1") 100
      [some ⟨1, Kind.Room, Scope.Global, none, str "p1", str "m1", 100,
        ⟨str "alice", str "WEIRD", str "p1", 100⟩⟩]
      = some (str "WEIRD", true)
  ∧ some (str "WEIRD", true) ≠ some (str "Alice", true) :=
  ⟨by decide, by decide, by decide⟩

/-- C4 (amended): `claim_unique` seeds its freshly created table with the
caller's own claim before the collection window; for every desired name and
peer id, if every decoded claim for lower(desired) applied during the window
comes from `my_peer_id` itself and carries the desired display name (in
particular when zero messages arrive), `claim_unique` returns the original
desired display name with owned = true. -/
theorem claim_C4 (desired my_peer_id : Str) (now : Nat)
    (received : List (Option (Envelope NameClaim)))
    (h : ∀ env ∈ received.filterMap id, env.body.nick_lower = lower desired →
      env.body.owner_peer_id = my_peer_id ∧ env.body.nickname = desired) :
    claim_unique desired my_peer_id now received = some (desired, true) := by
  have hseed : (NameTable.empty.apply (claim_unique_claim desired my_peer_id now)).owners
      (lower desired) = some ⟨my_peer_id, now, desired⟩ := by
    simp [NameTable.apply, NameTable.empty, NameTable.insert, claim_unique_claim]
  have htab : (claim_unique_table desired my_peer_id now received).owner (lower desired)
      = some ⟨my_peer_id, now, desired⟩ :=
    collectNames_fixed received _ (lower desired) ⟨my_peer_id, now, desired⟩ hseed h
  unfold claim_unique
  rw [htab]
  simp

/-- C4, witness: an empty window returns the desired name, owned. -/
theorem claim_C4_witness :
    (∀ env ∈ ([] : List (Option (Envelope NameClaim))).filterMap id,
      env.body.nick_lower = lower (str "Alice") →
      env.body.owner_peer_id = str "p1" ∧ env.body.nickname = str "Alice")
  ∧ claim_unique (str "Alice") (str "p1") 100 [] = some (str "Alice", true) :=
  ⟨by simp, claim_C4 (str "Alice") (str "p1") 100 [] (by simp)⟩

/-- C5, counterexample to the claim as stated: the code slices the first
min(6, len) BYTES of the peer id, not the first 6 characters.  Peer id
`ααααα` (five two-byte characters) loses the race to an earlier claimant; the
code returns suffix `ααα` (6 bytes = 3 characters), not the first-6-characters
suffix `ααααα` the claim describes. -/
theorem claim_C5_counterexample :
    (claim_unique_table (str "Alice") (str "ααααα") 100
      [some ⟨1, Kind.Room, Scope.Global, none, str "bb", str "m1", 50,
        ⟨str "alice", str "Alice", str "bb", 50⟩⟩]).owner (lower (str "Alice"))
      = some ⟨str "bb", 50, str "Alice"⟩
  ∧ str "bb" ≠ str "ααααα"
  ∧ claim_unique (str "Alice") (str "ααααα") 100
      [some ⟨1, Kind.Room, Scope.Global, none, str "bb", str "m1", 50,
        ⟨str "alice", str "Alice", str "bb", 50⟩⟩]
      = some (str "Alice-ααα", false)
  ∧ str "Alice-ααα" ≠ str "Alice" ++ '-' :: (str "ααααα").take 6 :=
  ⟨by decide, by decide, by decide, by decide⟩

/-- C5 (amended): whenever the final table lookup in `claim_unique` shows an
owner different from `my_peer_id` for lower(desired), `claim_unique` returns
owned = false with the fallback name formed from the desired name, a dash and
the first min(6, byte length) BYTES of `my_peer_id` (a Rust panic, modelled as
`none`, when that byte index is not a character boundary); for ASCII peer ids
this equals the first 6 characters, e.g. peer `p-aaaaaa111` losing `Alice`
gets `Alice-p-aaaa`. -/
theorem claim_C5 (desired my_peer_id : Str) (now : Nat)
    (received : List (Option (Envelope NameClaim))) (r : NameRec)
    (hlook : (claim_unique_table desired my_peer_id now received).owner (lower desired)
      = some r)
    (hne : r.owner_peer_id ≠ my_peer_id) :
    claim_unique desired my_peer_id now received
      = (takeBytes my_peer_id (min 6 (byteLen my_peer_id))).map
          (fun suffix => (desired ++ '-' :: suffix, false)) := by
  unfold claim_unique
  rw [hlook]
  show (if r.owner_peer_id = my_peer_id then some (r.nickname, true)
    else claim_unique_fallback desired my_peer_id) = _
  rw [if_neg hne]
  rfl

/-- C5, witness: the spec example.  Peer `p-aaaaaa111` loses `Alice` to an
earlier claimant `bb` and receives `Alice-p-aaaa`, not owned. -/
theorem claim_C5_witness :
    (claim_unique_table (str "Alice") (str "p-aaaaaa111") 100
      [some ⟨1, Kind.Room, Scope.Global, none, str "bb", str "m1", 50,
        ⟨str "alice", str "Alice", str "bb", 50⟩⟩]).owner (lower (str "Alice"))
      = some ⟨str "bb", 50, str "Alice"⟩
  ∧ str "bb" ≠ str "p-aaaaaa111"
  ∧ claim_unique (str "Alice") (str "p-aaaaaa111") 100
      [some ⟨1, Kind.Room, Scope.Global, none, str "bb", str "m1", 50,
        ⟨str "alice", str "Alice", str "bb", 50⟩⟩]
      = some (str "Alice-p-aaaa", false) := by
  refine ⟨by decide, by decide, ?_⟩
  have h := claim_C5 (str "Alice") (str "p-aaaaaa111") 100
    [some ⟨1, Kind.Room, Scope.Global, none, str "bb", str "m1", 50,
      ⟨str "alice", str "Alice", str "bb", 50⟩⟩]
    ⟨str "bb", 50, str "Alice"⟩ (by decide) (by decide)
  rw [h]
  decide

/-- C6: when the incoming claim has the same owner as the stored record, the
table update changes at most the display casing (and, for room claims, the
room id): the stored owner and since timestamp are kept exactly, for every
timestamp on the incoming claim, and every other key is untouched. -/
theorem claim_C6 :
    (∀ (t : NameTable) (c : NameClaim) (r : NameRec),
      t.owners c.nick_lower = some r → r.owner_peer_id = c.owner_peer_id →
      (t.apply c).owners c.nick_lower = some ⟨r.owner_peer_id, r.since_ts, c.nickname⟩
      ∧ ∀ k, k ≠ c.nick_lower → (t.apply c).owners k = t.owners k)
  ∧ (∀ (t : RoomTable) (c : RoomClaim) (r : RoomRec),
      t.names c.name_lower = some r → r.owner_peer_id = c.owner_peer_id →
      (t.apply_claim c).names c.name_lower
        = some ⟨r.owner_peer_id, r.since_ts, c.name, c.room_id⟩
      ∧ ∀ k, k ≠ c.name_lower → (t.apply_claim c).names k = t.names k) := by
  constructor
  · intro t c r h ho
    refine ⟨?_, fun k hk => apply_owners_ne t c k hk⟩
    rw [apply_owners_self, h]
    by_cases hn : c.nickname = r.nickname
    · simp [nameStep, ho, hn]
      rw [← ho]
    · simp [nameStep, ho, hn]
  · intro t c r h ho
    refine ⟨?_, fun k hk => apply_claim_names_ne t c k hk⟩
    rw [apply_claim_names_self, h]
    by_cases hn : c.name ≠ r.name ∨ c.room_id ≠ r.room_id
    · simp [roomStep, ho, hn]
    · push_neg at hn
      obtain ⟨h1, h2⟩ := hn
      simp [roomStep, ho, h1, h2]
      rw [← ho]

/-- C6, witness: a same-owner claim with timestamp 999 against a record with
timestamp 100 updates only the display (and room id) fields. -/
theorem claim_C6_witness :
    ((NameTable.empty.apply ⟨str "k", str "K", str "p1", 100⟩).owners (str "k")
      = some ⟨str "p1", 100, str "K"⟩)
  ∧ (⟨str "p1", 100, str "K"⟩ : NameRec).owner_peer_id
      = (⟨str "k", str "K2", str "p1", 999⟩ : NameClaim).owner_peer_id
  ∧ (((NameTable.empty.apply ⟨str "k", str "K", str "p1", 100⟩).apply
        ⟨str "k", str "K2", str "p1", 999⟩).owners (str "k")
      = some ⟨str "p1", 100, str "K2"⟩
     ∧ ∀ k, k ≠ str "k" →
        ((NameTable.empty.apply ⟨str "k", str "K", str "p1", 100⟩).apply
          ⟨str "k", str "K2", str "p1", 999⟩).owners k
          = (NameTable.empty.apply ⟨str "k", str "K", str "p1", 100⟩).owners k)
  ∧ (((RoomTable.empty.apply_claim ⟨str "k", str "K", str "p1", 100, str "r1"⟩).apply_claim
        ⟨str "k", str "K2", str "p1", 999, str "r2"⟩).names (str "k")
      = some ⟨str "p1", 100, str "K2", str "r2"⟩
     ∧ ∀ k, k ≠ str "k" →
        ((RoomTable.empty.apply_claim ⟨str "k", str "K", str "p1", 100, str "r1"⟩).apply_claim
          ⟨str "k", str "K2", str "p1", 999, str "r2"⟩).names k
          = (RoomTable.empty.apply_claim ⟨str "k", str "K", str "p1", 100, str "r1"⟩).names k) :=
  ⟨by decide, by decide,
    claim_C6.1 (NameTable.empty.apply ⟨str "k", str "K", str "p1", 100⟩)
      ⟨str "k", str "K2", str "p1", 999⟩ ⟨str "p1", 100, str "K"⟩ (by decide) (by decide),
    claim_C6.2 (RoomTable.empty.apply_claim ⟨str "k", str "K", str "p1", 100, str "r1"⟩)
      ⟨str "k", str "K2", str "p1", 999, str "r2"⟩ ⟨str "p1", 100, str "K", str "r1"⟩
      (by decide) (by decide)⟩

/-- C7: during the collection windows of `claim_unique` and `claim_room_name`,
every received byte sequence that does not deserialize as the expected
envelope type is skipped; interleaving any number of malformed messages with
the decoded claims yields exactly the same result as receiving only the
decoded claims. -/
theorem claim_C7 :
    (∀ (desired my_peer_id : Str) (now : Nat)
      (received : List (Option (Envelope NameClaim))),
      claim_unique desired my_peer_id now received
        = claim_unique desired my_peer_id now ((received.filterMap id).map some))
  ∧ (∀ (desired_name my_peer_id : Str) (now : Nat) (room_id : Str)
      (received : List (Option (Envelope RoomClaim))),
      claim_room_name desired_name my_peer_id now room_id received
        = claim_room_name desired_name my_peer_id now room_id
            ((received.filterMap id).map some)) := by
  constructor
  · intro d m n ms
    unfold claim_unique claim_unique_table
    rw [collectNames_skip_malformed]
  · intro d m n rid ms
    unfold claim_room_name claim_room_table
    rw [collectRooms_skip_malformed]

/-- C8: every envelope constructed by the core operations carries the stamped
protocol version, and its `room_id` is present exactly when its scope is
`Room`; the remaining header fields are always present by construction. -/
theorem claim_C8 : ∀ (sender_id text room_id title host_id desired my_peer_id msg_id : Str)
    (rooms : List RoomSummary) (now created_at : Nat),
    headerOk (make_chat_global sender_id text now msg_id)
  ∧ headerOk (make_chat_room room_id sender_id text now msg_id)
  ∧ headerOk (claim_unique_env desired my_peer_id now msg_id)
  ∧ headerOk (claim_room_env desired my_peer_id now room_id msg_id)
  ∧ headerOk (announce_room_env room_id title host_id created_at now msg_id)
  ∧ headerOk (list_rooms_env now msg_id)
  ∧ headerOk (serve_discovery_res_env rooms now msg_id) := by
  intro sender_id text room_id title host_id desired my_peer_id msg_id rooms now created_at
  refine ⟨⟨rfl, ?_⟩, ⟨rfl, ?_⟩, ⟨rfl, ?_⟩, ⟨rfl, ?_⟩, ⟨rfl, ?_⟩, ⟨rfl, ?_⟩, ⟨rfl, ?_⟩⟩ <;>
    simp [make_chat_global, make_chat_room, make_envelope, claim_unique_env,
      claim_room_env, announce_room_env, list_rooms_env, serve_discovery_res_env]

/-- C9: once a key holds a record, no sequence of applies ever increases the
stored since timestamp for that key: the cross-owner path keeps the smaller
(or tied) timestamp and the same-owner path keeps the stored one, for both
tables. -/
theorem claim_C9 :
    (∀ (t : NameTable) (l : List NameClaim) (k : Str) (r : NameRec),
      t.owners k = some r →
      ∃ r2, (t.applyList l).owners k = some r2 ∧ r2.since_ts ≤ r.since_ts)
  ∧ (∀ (t : RoomTable) (l : List RoomClaim) (k : Str) (r : RoomRec),
      t.names k = some r →
      ∃ r2, (t.applyList l).names k = some r2 ∧ r2.since_ts ≤ r.since_ts) :=
  ⟨fun t l k r h => applyList_since_mono l t k r h,
   fun t l k r h => applyList_claim_since_mono l t k r h⟩

/-- C9, witness: a later-applied claim with a smaller timestamp can only lower
the stored timestamp below the initial 100. -/
theorem claim_C9_witness :
    (NameTable.empty.apply ⟨str "k", str "K", str "a", 100⟩).owners (str "k")
      = some ⟨str "a", 100, str "K"⟩
  ∧ ∃ r2, ((NameTable.empty.apply ⟨str "k", str "K", str "a", 100⟩).applyList
        [⟨str "k", str "K", str "b", 50⟩]).owners (str "k") = some r2
      ∧ r2.since_ts ≤ (⟨str "a", 100, str "K"⟩ : NameRec).since_ts :=
  ⟨by decide,
    claim_C9.1 (NameTable.empty.apply ⟨str "k", str "K", str "a", 100⟩)
      [⟨str "k", str "K", str "b", 50⟩] (str "k") ⟨str "a", 100, str "K"⟩ (by decide)⟩

/-- C10, counterexample to the claim as stated: the fallback path of
`claim_unique` is not total for every peer id.  The peer id `aaaaaé` has byte
length 7, so the clamped index is 6, which falls inside the two-byte character
`é`; the Rust byte slice panics there (modelled as `none`). -/
theorem claim_C10_counterexample :
    byteLen (str "aaaaaé") = 7
  ∧ claim_unique_fallback (str "Alice") (str "aaaaaé") = none :=
  ⟨by decide, by decide⟩

/-- C10 (amended): the fallback-suffix computation clamps its index to
min(6, byte length of `my_peer_id`), so the index never exceeds the string;
a peer id of at most 6 bytes yields the entire peer id as the suffix, and for
every ASCII peer id the fallback is defined and equals the desired name, a
dash and the first min(6, length) characters.  Slicing is only partial at a
clamped index that is not a character boundary. -/
theorem claim_C10 : ∀ (desired my_peer_id : Str),
    min 6 (byteLen my_peer_id) ≤ byteLen my_peer_id
  ∧ (byteLen my_peer_id ≤ 6 →
      claim_unique_fallback desired my_peer_id
        = some (desired ++ '-' :: my_peer_id, false))
  ∧ (strAscii my_peer_id →
      claim_unique_fallback desired my_peer_id
        = some (desired ++ '-' :: my_peer_id.take (min 6 my_peer_id.length), false)) :=
  fun desired my_peer_id =>
    ⟨Nat.min_le_right _ _, fallback_short desired my_peer_id,
      fallback_ascii desired my_peer_id⟩

/-- C10, witness: a 3-byte ASCII peer id yields itself as the whole suffix. -/
theorem claim_C10_witness :
    byteLen (str "abc") ≤ 6
  ∧ claim_unique_fallback (str "Alice") (str "abc")
      = some (str "Alice" ++ '-' :: str "abc", false) :=
  ⟨by decide, (claim_C10 (str "Alice") (str "abc")).2.1 (by decide)⟩

end P2P
